import Mathlib

/-!
Verification development for the NVIDIA prompt-task-and-complexity-classifier
model converters (`model_converters/onnx_convert.py` and
`model_converters/coreml.py`).

Keys of a PyTorch state dict are modelled as `List Char`; tensors are
modelled in exact arithmetic over `ℚ`; a state dict is an insertion-ordered
association list, mirroring a Python `dict`.
-/

/-- The enumerated-scheme key marker `"head_"` used by
`load_weights_from_original` in `onnx_convert.py`. -/
def headPat : List Char := ['h', 'e', 'a', 'd', '_']

/-- The list-indexed-scheme key marker `"heads."` used by
`load_weights_from_original` in `onnx_convert.py`. -/
def headsPat : List Char := ['h', 'e', 'a', 'd', 's', '.']

/-- Model of Python `key.replace("head_", "heads.")`: replace every
left-to-right, non-overlapping occurrence of `"head_"` by `"heads."`. -/
def replaceHeadWithHeads : List Char → List Char
  | 'h' :: 'e' :: 'a' :: 'd' :: '_' :: rest =>
      'h' :: 'e' :: 'a' :: 'd' :: 's' :: '.' :: replaceHeadWithHeads rest
  | c :: rest => c :: replaceHeadWithHeads rest
  | [] => []

/-- Model of Python `key.replace("heads.", "head_")`: replace every
left-to-right, non-overlapping occurrence of `"heads."` by `"head_"`. -/
def replaceHeadsWithHead : List Char → List Char
  | 'h' :: 'e' :: 'a' :: 'd' :: 's' :: '.' :: rest =>
      'h' :: 'e' :: 'a' :: 'd' :: '_' :: replaceHeadsWithHead rest
  | c :: rest => c :: replaceHeadsWithHead rest
  | [] => []

/-- The per-key remap of `load_weights_from_original` (`onnx_convert.py`,
lines 225-231): `if key.startswith("head_"): new_key =
key.replace("head_", "heads.")`, otherwise the key is kept. -/
def remapKey (key : List Char) : List Char :=
  if headPat.isPrefixOf key then replaceHeadWithHeads key else key

/-- Modelled from the spec: the inverse remap direction (list-indexed scheme
back to enumerated scheme) from §4.3 "produce `heads.<i>.*` under the list
scheme (or the inverse)".  No inverse remap exists in `src/`; this mirrors
the implementation pattern of the forward remap (prefix test, then a
replace-all of the scheme marker). -/
def remapKeyInv (key : List Char) : List Char :=
  if headsPat.isPrefixOf key then replaceHeadsWithHead key else key

/-- Python `dict` assignment `d[k] = v`: overwrite in place if the key is
present, else append. -/
def dictAssign {α : Type} : List (List Char × α) → List Char → α → List (List Char × α)
  | [], k, v => [(k, v)]
  | (k', v') :: d, k, v =>
      if k' = k then (k, v) :: d else (k', v') :: dictAssign d k v

/-- The `new_state_dict` construction loop of `load_weights_from_original`
(`onnx_convert.py`, lines 223-231): every entry is inserted under its
remapped key. -/
def remapStateDict {α : Type} (sd : List (List Char × α)) : List (List Char × α) :=
  sd.foldl (fun d kv => dictAssign d (remapKey kv.1) kv.2) []

/-- Modelled from the spec: the whole-store inverse remap (scheme B back to
scheme A), §4.3; the loop mirrors `remapStateDict` with the inverse per-key
map. -/
def remapStateDictInv {α : Type} (sd : List (List Char × α)) : List (List Char × α) :=
  sd.foldl (fun d kv => dictAssign d (remapKeyInv kv.1) kv.2) []

/-- Model of PyTorch `Module.load_state_dict(sd, strict)`: computes the
`missing` keys (model keys absent from `sd`) and `unexpected` keys (keys of
`sd` absent from the model); with `strict=True` it raises if either list is
nonempty, with `strict=False` it only returns the two lists. -/
def load_state_dict {α : Type} (strict : Bool) (modelKeys : List (List Char))
    (sd : List (List Char × α)) :
    Except Unit (List (List Char) × List (List Char)) :=
  let missing := modelKeys.filter (fun k => decide (k ∉ sd.map Prod.fst))
  let unexpected := (sd.map Prod.fst).filter (fun k => decide (k ∉ modelKeys))
  if strict ∧ (missing ≠ [] ∨ unexpected ≠ []) then Except.error ()
  else Except.ok (missing, unexpected)

/-- Model of `load_weights_from_original` (`onnx_convert.py`, lines 204-241): remap
the state-dict keys, then `model.load_state_dict(new_state_dict,
strict=False)`; the returned `missing`/`unexpected` lists are only printed
as warnings.  `modelKeys` are the parameter/buffer keys of the wrapper
model. -/
def load_weights_from_original {α : Type} (modelKeys : List (List Char))
    (sd : List (List Char × α)) :
    Except Unit (List (List Char) × List (List Char)) :=
  load_state_dict false modelKeys (remapStateDict sd)

/-- Sum of a list of vectors of width `dim`, componentwise (the model of
`torch.sum(·, 1)` over the sequence dimension). -/
def vsum (dim : ℕ) (vs : List (List ℚ)) : List ℚ :=
  vs.foldr (fun r acc => List.zipWith (· + ·) r acc) (List.replicate dim 0)

/-- The clamped mask total of `MeanPooling.forward`
(`onnx_convert.py`, lines 106-107 and `coreml.py`, lines 161-162):
`sum_mask = torch.clamp(input_mask_expanded.sum(1), min=1e-9)`.  Summing the
expanded mask over the sequence dimension yields the scalar
`attention_mask.sum()` in every hidden coordinate. -/
def sum_mask_clamped (attention_mask : List ℚ) : ℚ :=
  max (attention_mask.foldr (· + ·) 0) ((1 : ℚ) / 1000000000)

/-- Model of `MeanPooling.forward` (`onnx_convert.py`, lines 95-111 and `coreml.py`,
lines 150-166) in exact arithmetic: multiply each hidden-state row by its
mask value, sum over the sequence dimension, and divide by the clamped mask
total.  `dim` is the hidden width of the tensor. -/
def MeanPooling_forward (dim : ℕ) (last_hidden_state : List (List ℚ))
    (attention_mask : List ℚ) : List ℚ :=
  let masked := List.zipWith (fun m row => row.map (fun x => x * m))
    attention_mask last_hidden_state
  let sum_embeddings := vsum dim masked
  sum_embeddings.map (fun x => x / sum_mask_clamped attention_mask)

/-- Model of `MulticlassHead.forward` (`onnx_convert.py`, lines 114-127 and
`coreml.py`, lines 169-184): a single `nn.Linear` affine projection
`W·x + b`; row `i` of `weight` produces logit `i`. -/
def MulticlassHead_forward (weight : List (List ℚ)) (bias : List ℚ)
    (x : List ℚ) : List ℚ :=
  List.zipWith (fun row b => (List.zipWith (· * ·) row x).foldr (· + ·) 0 + b)
    weight bias

/-- The per-head output widths of the ConfigRecord named by the spec's
end-to-end scenario: `config.target_sizes` values in declaration order. -/
def targetSizes : List ℕ := [12, 3, 2, 2, 6, 4, 1, 2]

/-- Model of `PromptClassifierONNX.forward` (`onnx_convert.py`, lines 166-201): cast
the attention mask to float, run the backbone, mean-pool, then apply each
head of the `ModuleList` in order.  The backbone (external
`AutoModel.from_pretrained`) is a parameter; each head is its `(weight,
bias)` pair. -/
def PromptClassifierONNX_forward (dim : ℕ)
    (backbone : List ℤ → List ℚ → List (List ℚ))
    (heads : List (List (List ℚ) × List ℚ))
    (input_ids : List ℤ) (attention_mask : List ℤ) : List (List ℚ) :=
  let attention_mask_float := attention_mask.map (fun n => (n : ℚ))
  let last_hidden_state := backbone input_ids attention_mask_float
  let pooled := MeanPooling_forward dim last_hidden_state attention_mask_float
  heads.map (fun h => MulticlassHead_forward h.1 h.2 pooled)

/-- Model of `OriginalCustomModel.forward` (`coreml.py`, lines 232-262): identical
computation, but the heads are fetched by index `head_<i>` for
`i in range(len(target_sizes))`; `targetCount` is `len(self.target_sizes)`. -/
def OriginalCustomModel_forward (dim targetCount : ℕ)
    (backbone : List ℤ → List ℚ → List (List ℚ))
    (heads : List (List (List ℚ) × List ℚ))
    (input_ids : List ℤ) (attention_mask : List ℤ) : List (List ℚ) :=
  let attention_mask_float := attention_mask.map (fun n => (n : ℚ))
  let last_hidden_state := backbone input_ids attention_mask_float
  let pooled := MeanPooling_forward dim last_hidden_state attention_mask_float
  (List.range targetCount).map
    (fun i => MulticlassHead_forward (heads.getD i ([], [])).1
      (heads.getD i ([], [])).2 pooled)

/-- Maximum absolute elementwise difference of two output tensors:
`abs(pt_out.numpy() - ort_out).max()` (`onnx_convert.py`, line 404). -/
def maxAbsDiff (a b : List ℚ) : ℚ :=
  (List.zipWith (fun x y => |x - y|) a b).foldr max 0

/-- The parity-comparison loop (`onnx_convert.py`, lines 401-406): for each
output pair, the measured max-abs deviation and the pass flag
`diff < 1e-4`; a `false` flag is only a printed warning. -/
def parity_report (outs orts : List (List ℚ)) : List (ℚ × Bool) :=
  List.zipWith
    (fun o r => (maxAbsDiff o r, decide (maxAbsDiff o r < (1 : ℚ) / 10000)))
    outs orts

/-- JSON-like values carried by the model configuration and the metadata
sidecar. -/
inductive JValue : Type where
  | str : String → JValue
  | num : ℚ → JValue
  | arr : List JValue → JValue
  | obj : List (String × JValue) → JValue

/-- The ConfigRecord fields consumed by the metadata emitter:
`config.task_type_map`, `config.weights_map`, `config.divisor_map`,
`config.target_sizes` of the pretrained configuration. -/
structure ConfigRecord : Type where
  task_type_map : JValue
  weights_map : JValue
  divisor_map : JValue
  target_sizes : JValue

/-- The ONNX export output-name list (`onnx_convert.py`, lines 335-344). -/
def output_names_onnx : List String :=
  ["logits_task_type", "logits_creativity_scope", "logits_reasoning",
   "logits_contextual_knowledge", "logits_few_shots",
   "logits_domain_knowledge", "logits_no_label_reason",
   "logits_constraint_ct"]

/-- The `metadata` dict written to `classifier_metadata.json`
(`onnx_convert.py`, lines 427-433): five entries, each taken directly from
the config (plus the output-name list), in insertion order. -/
def classifier_metadata (config : ConfigRecord) (output_names : List String) :
    List (String × JValue) :=
  [("task_type_map", config.task_type_map),
   ("weights_map", config.weights_map),
   ("divisor_map", config.divisor_map),
   ("target_sizes", config.target_sizes),
   ("output_names", JValue.arr (output_names.map JValue.str))]

/-- Python `tensor.size(-2)` on a shape list (total model: `0` when the
tensor has fewer than two dimensions). -/
def sizeNeg2 (dims : List ℕ) : ℕ := dims.getD (dims.length - 2) 0

/-- Model of `safe_build_rpos` (`coreml.py`, lines 94-122): the replacement for
DeBERTa's `build_rpos`.  Query and key tensors enter through their shapes;
`build_relative_position` (external,
`modeling_deberta_v2.build_relative_position`) is a parameter. -/
def safe_build_rpos {R : Type} (queryDims keyDims : List ℕ) (relative_pos : R)
    (position_buckets max_relative_positions : ℤ)
    (build_relative_position : List ℕ → ℤ → ℤ → R) : R :=
  if sizeNeg2 keyDims ≠ sizeNeg2 queryDims then
    build_relative_position keyDims position_buckets max_relative_positions
  else relative_pos

/-- Boolean matcher, written from the spec's words (§4.3), for the
enumerated-scheme head pattern `head_<i>.*`: the marker `head_`, at least
one decimal digit, then a dot. -/
def specHeadEnumPattern (k : List Char) : Bool :=
  headPat.isPrefixOf k &&
    (let t := k.drop 5
     let ds := t.takeWhile Char.isDigit
     !ds.isEmpty && (t.drop ds.length).head? = some '.')

/-- Boolean matcher, written from the spec's words (§4.3), for the
list-indexed-scheme head pattern `heads.<i>.*`. -/
def specHeadListPattern (k : List Char) : Bool :=
  headsPat.isPrefixOf k &&
    (let t := k.drop 6
     let ds := t.takeWhile Char.isDigit
     !ds.isEmpty && (t.drop ds.length).head? = some '.')

/-- Example weight store used to witness the amended remap claims. -/
def exampleStore : List (List Char × ℚ) :=
  [("head_0.fc.weight".toList, 3), ("head_1.fc.bias".toList, 4),
   ("backbone.embeddings.word_embeddings.weight".toList, 5)]

/-- Store holding a single list-scheme weight key; counterexample input for
the remap round-trip claim. -/
def listSchemeStore : List (List Char × ℚ) := [("heads.0.fc.weight".toList, 7)]

/-- Example heads for the forward-contract witness: one `(weight, bias)`
pair per target size, over a hidden width of 2. -/
def exampleHeads : List (List (List ℚ) × List ℚ) :=
  targetSizes.map (fun sz => (List.replicate sz [(1 : ℚ), 1], List.replicate sz 0))

/-- Example backbone (constant hidden states over a hidden width of 2) for
the forward-contract witness. -/
def exampleBackbone : List ℤ → List ℚ → List (List ℚ) :=
  fun _ _ => [[1, 2], [3, 4]]

theorem isPrefixOfIff (l₁ l₂ : List Char) : l₁.isPrefixOf l₂ = true ↔ l₁ <+: l₂ := by
  induction l₁ generalizing l₂ with
  | nil => simp [List.isPrefixOf]
  | cons a as ih =>
    cases l₂ with
    | nil => simp [List.isPrefixOf]
    | cons b bs => simp [List.isPrefixOf, List.cons_prefix_cons, ih bs]

theorem rep1_marker (t : List Char) :
    replaceHeadWithHeads (headPat ++ t) = headsPat ++ replaceHeadWithHeads t := rfl

theorem rep2_marker (t : List Char) :
    replaceHeadsWithHead (headsPat ++ t) = headPat ++ replaceHeadsWithHead t := rfl

theorem rep1_cons {c : Char} {r : List Char} (h : ¬ headPat <+: (c :: r)) :
    replaceHeadWithHeads (c :: r) = c :: replaceHeadWithHeads r := by
  rw [replaceHeadWithHeads.eq_def]
  split
  · rename_i rest heq
    exact absurd ⟨rest, by rw [heq]; rfl⟩ h
  · rename_i c' rest heq
    rw [List.cons.injEq] at heq
    rw [heq.1, heq.2]
  · rename_i heq
    exact absurd heq (by simp)

theorem rep2_cons {c : Char} {r : List Char} (h : ¬ headsPat <+: (c :: r)) :
    replaceHeadsWithHead (c :: r) = c :: replaceHeadsWithHead r := by
  rw [replaceHeadsWithHead.eq_def]
  split
  · rename_i rest heq
    exact absurd ⟨rest, by rw [heq]; rfl⟩ h
  · rename_i c' rest heq
    rw [List.cons.injEq] at heq
    rw [heq.1, heq.2]
  · rename_i heq
    exact absurd heq (by simp)

theorem rep1_prefixNoH : ∀ {k s : List Char},
    s <+: replaceHeadWithHeads k → 'h' ∉ s → s <+: k := by
  intro k
  induction k with
  | nil =>
    intro s hpre _
    obtain ⟨t, ht⟩ := hpre
    have hs : s = [] := by
      have := List.append_eq_nil.mp ht
      exact this.1
    rw [hs]
  | cons c r ih =>
    intro s hpre hh
    cases s with
    | nil => exact ⟨c :: r, rfl⟩
    | cons c0 s' =>
      by_cases hp : headPat <+: (c :: r)
      · obtain ⟨t, ht⟩ := hp
        rw [← ht, rep1_marker] at hpre
        have h2 := List.cons_prefix_cons.mp
          (show c0 :: s' <+: 'h' :: ('e' :: 'a' :: 'd' :: 's' :: '.' ::
            replaceHeadWithHeads t) from hpre)
        rw [h2.1] at hh
        exact absurd (List.mem_cons_self 'h' s') hh
      · rw [rep1_cons hp] at hpre
        have h2 := List.cons_prefix_cons.mp hpre
        have h3 := ih h2.2 (fun hmem => hh (List.mem_cons_of_mem _ hmem))
        exact List.cons_prefix_cons.mpr ⟨h2.1, h3⟩

theorem rep1_headsPat_split {k : List Char}
    (h : headsPat <+: replaceHeadWithHeads k) :
    headPat <+: k ∨ headsPat <+: k := by
  cases k with
  | nil =>
    obtain ⟨t, ht⟩ := h
    simp [replaceHeadWithHeads, headsPat] at ht
  | cons c r =>
    by_cases hp : headPat <+: (c :: r)
    · exact Or.inl hp
    · right
      rw [rep1_cons hp] at h
      have h2 := List.cons_prefix_cons.mp
        (show 'h' :: ['e', 'a', 'd', 's', '.'] <+: c :: replaceHeadWithHeads r
          from h)
      have h3 := rep1_prefixNoH h2.2 (by decide)
      exact List.cons_prefix_cons.mpr ⟨h2.1, h3⟩

theorem rep_roundtrip_aux : ∀ (n : ℕ) (k : List Char), k.length ≤ n →
    ¬ headsPat <:+: k →
    replaceHeadsWithHead (replaceHeadWithHeads k) = k := by
  intro n
  induction n with
  | zero =>
    intro k hk _
    have : k = [] := List.length_eq_zero.mp (Nat.le_zero.mp hk)
    rw [this]
    rfl
  | succ n ih =>
    intro k hk hinf
    cases k with
    | nil => rfl
    | cons c r =>
      by_cases hp : headPat <+: (c :: r)
      · obtain ⟨t, ht⟩ := hp
        rw [← ht, rep1_marker, rep2_marker]
        congr 1
        apply ih
        · have hlen : (headPat ++ t).length = (c :: r).length := by rw [ht]
          simp [headPat] at hlen
          simp only [List.length_cons] at hk
          omega
        · intro hcon
          apply hinf
          have hsuf : t <:+ (c :: r) := by
            rw [← ht]
            exact List.suffix_append headPat t
          exact hcon.trans hsuf.isInfix
      · rw [rep1_cons hp]
        have hg : ¬ headsPat <+: (c :: replaceHeadWithHeads r) := by
          intro hcon
          rw [← rep1_cons hp] at hcon
          rcases rep1_headsPat_split hcon with h1 | h2
          · exact hp h1
          · exact hinf h2.isInfix
        rw [rep2_cons hg]
        congr 1
        apply ih
        · simp only [List.length_cons] at hk
          omega
        · intro hcon
          apply hinf
          obtain ⟨s, t2, hst⟩ := hcon
          exact ⟨c :: s, t2, by rw [← hst]; rfl⟩

theorem remapKey_roundtrip {k : List Char} (h : ¬ headsPat <:+: k) :
    remapKeyInv (remapKey k) = k := by
  by_cases hp : headPat.isPrefixOf k = true
  · simp only [remapKey, if_pos hp]
    obtain ⟨t, ht⟩ := (isPrefixOfIff _ _).mp hp
    rw [← ht] at h ⊢
    rw [rep1_marker]
    have hpre2 : headsPat.isPrefixOf (headsPat ++ replaceHeadWithHeads t) = true :=
      (isPrefixOfIff _ _).mpr ⟨_, rfl⟩
    simp only [remapKeyInv, if_pos hpre2]
    rw [← rep1_marker]
    exact rep_roundtrip_aux (headPat ++ t).length _ le_rfl h
  · simp only [remapKey, if_neg hp]
    have hn : ¬ headsPat.isPrefixOf k = true := by
      intro hcon
      exact h ((isPrefixOfIff _ _).mp hcon).isInfix
    simp only [remapKeyInv, if_neg hn]

theorem rep1_of_noOccur {t : List Char} (h : ¬ headPat <:+: t) :
    replaceHeadWithHeads t = t := by
  induction t with
  | nil => rfl
  | cons c r ih =>
    have hp : ¬ headPat <+: (c :: r) := fun hcon => h hcon.isInfix
    rw [rep1_cons hp, ih (fun hcon => h (List.infix_cons hcon))]

theorem dictAssign_append {α : Type} (d : List (List Char × α)) (k : List Char)
    (v : α) (h : k ∉ d.map Prod.fst) : dictAssign d k v = d ++ [(k, v)] := by
  induction d with
  | nil => rfl
  | cons kv d ih =>
    obtain ⟨k', v'⟩ := kv
    simp only [List.map_cons, List.mem_cons] at h
    push_neg at h
    rw [dictAssign, if_neg (fun heq => h.1 heq.symm), ih h.2]
    rfl

theorem foldl_dictAssign {α : Type} (f : List Char → List Char) :
    ∀ (l d : List (List Char × α)),
    (l.map (fun kv => f kv.1)).Nodup →
    (∀ kv ∈ l, f kv.1 ∉ d.map Prod.fst) →
    l.foldl (fun d kv => dictAssign d (f kv.1) kv.2) d
      = d ++ l.map (fun kv => (f kv.1, kv.2)) := by
  intro l
  induction l with
  | nil => intro d _ _; simp
  | cons kv l ih =>
    intro d hnd hdis
    simp only [List.foldl_cons]
    rw [dictAssign_append d (f kv.1) kv.2 (hdis kv (List.mem_cons_self _ _))]
    simp only [List.map_cons, List.nodup_cons] at hnd
    rw [ih (d ++ [(f kv.1, kv.2)]) hnd.2 ?dis]
    · simp
    case dis =>
      intro kv' hkv'
      simp only [List.map_append, List.mem_append, List.map_cons, List.map_nil,
        List.mem_singleton]
      push_neg
      refine ⟨hdis kv' (List.mem_cons_of_mem _ hkv'), ?_⟩
      intro heq
      exact hnd.1 (heq ▸ List.mem_map_of_mem (fun kv => f kv.1) hkv')

theorem remapStateDict_eq_map {α : Type} (sd : List (List Char × α))
    (hnd : (sd.map (fun kv => remapKey kv.1)).Nodup) :
    remapStateDict sd = sd.map (fun kv => (remapKey kv.1, kv.2)) := by
  have := foldl_dictAssign remapKey sd [] hnd (by simp)
  simpa [remapStateDict] using this

theorem remapStateDictInv_eq_map {α : Type} (sd : List (List Char × α))
    (hnd : (sd.map (fun kv => remapKeyInv kv.1)).Nodup) :
    remapStateDictInv sd = sd.map (fun kv => (remapKeyInv kv.1, kv.2)) := by
  have := foldl_dictAssign remapKeyInv sd [] hnd (by simp)
  simpa [remapStateDictInv] using this

/-- C1: code evaluated at the failing input.  With a wrapper model exposing
the weight key `heads.0.fc.weight` and a state dict that lacks it, the
load (`strict=False`) returns successfully, reporting the missing weight
key only in the warning list — it does not abort, contradicting the claim
that a missing head or backbone weight key must abort. -/
theorem load_no_abort_on_missing_weight_key :
    load_weights_from_original ["heads.0.fc.weight".toList]
        ([] : List (List Char × ℚ))
      = Except.ok (["heads.0.fc.weight".toList], []) := rfl

/-- C2 counterexample: for the store holding the single weight key
`heads.0.fc.weight`, remapping A→B and then B→A produces the key
`head_0.fc.weight`, so the round trip is not the identity: the original
weight key is dropped. -/
theorem remap_roundtrip_fails_on_list_scheme_store :
    remapStateDictInv (remapStateDict listSchemeStore)
        = [("head_0.fc.weight".toList, (7 : ℚ))] ∧
    remapStateDictInv (remapStateDict listSchemeStore) ≠ listSchemeStore ∧
    (remapStateDictInv (remapStateDict listSchemeStore)).lookup
        "heads.0.fc.weight".toList = none := by
  exact ⟨rfl, by decide, rfl⟩

/-- C2 (amended): for every WeightStore with duplicate-free keys none of
which contains the list-scheme marker `heads.` as a substring (in
particular every store drawn from the enumerated scheme), remapping A→B and
then B→A is the identity, no key is dropped (the store size is preserved),
and no two keys are collapsed onto one. -/
theorem remap_roundtrip_on_enumerated_stores {α : Type}
    (W : List (List Char × α)) (hnd : (W.map Prod.fst).Nodup)
    (hno : ∀ k ∈ W.map Prod.fst, ¬ headsPat <:+: k) :
    remapStateDictInv (remapStateDict W) = W ∧
    (remapStateDict W).length = W.length ∧
    ∀ k1 ∈ W.map Prod.fst, ∀ k2 ∈ W.map Prod.fst,
      remapKey k1 = remapKey k2 → k1 = k2 := by
  have hinj : ∀ k1 ∈ W.map Prod.fst, ∀ k2 ∈ W.map Prod.fst,
      remapKey k1 = remapKey k2 → k1 = k2 := by
    intro k1 h1 k2 h2 heq
    have e1 := remapKey_roundtrip (hno k1 h1)
    have e2 := remapKey_roundtrip (hno k2 h2)
    rw [← e1, ← e2, heq]
  have hnd1 : (W.map (fun kv => remapKey kv.1)).Nodup := by
    have hmm : W.map (fun kv => remapKey kv.1)
        = (W.map Prod.fst).map remapKey := by rw [List.map_map]; rfl
    rw [hmm]
    exact hnd.map_on (fun x hx y hy h => hinj x hx y hy h)
  have h1 := remapStateDict_eq_map W hnd1
  refine ⟨?_, by rw [h1]; simp, hinj⟩
  rw [h1]
  have hcomp : (W.map (fun kv => (remapKey kv.1, kv.2))).map
      (fun kv => remapKeyInv kv.1) = W.map Prod.fst := by
    rw [List.map_map]
    apply List.map_congr_left
    intro kv hkv
    exact remapKey_roundtrip (hno kv.1 (List.mem_map_of_mem Prod.fst hkv))
  have hnd2 : ((W.map (fun kv => (remapKey kv.1, kv.2))).map
      (fun kv => remapKeyInv kv.1)).Nodup := by rw [hcomp]; exact hnd
  rw [remapStateDictInv_eq_map _ hnd2, List.map_map]
  have hid : ∀ kv ∈ W, ((fun kv : List Char × α => (remapKeyInv kv.1, kv.2)) ∘
      (fun kv : List Char × α => (remapKey kv.1, kv.2))) kv = id kv := by
    intro kv hkv
    simp only [Function.comp, id]
    rw [remapKey_roundtrip (hno kv.1 (List.mem_map_of_mem Prod.fst hkv))]
  rw [List.map_congr_left hid, List.map_id]

/-- C2 witness: the amended round trip evaluated on a concrete
enumerated-scheme store with two head keys and one backbone key. -/
theorem remap_roundtrip_on_enumerated_stores_witness :
    ((exampleStore.map Prod.fst).Nodup ∧
      ∀ k ∈ exampleStore.map Prod.fst, ¬ headsPat <:+: k) ∧
    remapStateDictInv (remapStateDict exampleStore) = exampleStore := by
  exact ⟨⟨by decide, by decide⟩,
    (remap_roundtrip_on_enumerated_stores exampleStore (by decide)
      (by decide)).1⟩

/-- C3 counterexample: the key `head_x.w` matches neither head pattern yet
is rewritten (to `heads.x.w`), and the key `head_0.head_1.w` matches
`head_<i>.*` yet its tail is also rewritten, producing
`heads.0.heads.1.w` instead of `heads.0.head_1.w`. -/
theorem remapKey_pattern_violations :
    (specHeadEnumPattern "head_x.w".toList = false ∧
     specHeadListPattern "head_x.w".toList = false ∧
     remapKey "head_x.w".toList ≠ "head_x.w".toList ∧
     remapKey "head_x.w".toList = "heads.x.w".toList) ∧
    (specHeadEnumPattern "head_0.head_1.w".toList = true ∧
     remapKey "head_0.head_1.w".toList ≠ "heads.0.head_1.w".toList ∧
     remapKey "head_0.head_1.w".toList = "heads.0.heads.1.w".toList) := by
  decide

/-- C3 (amended): the remap is gated on the prefix `head_` (not on the full
`head_<i>.*` pattern) and replaces every occurrence of `head_` by `heads.`.
Hence, for every store entry: the entry reappears in the remapped store
with its tensor value unchanged; a key of the form `head_` ++ t whose tail
t contains no further `head_` occurrence becomes `heads.` ++ t (only the
marker rewritten); and a key not starting with `head_` passes through
unchanged. -/
theorem remapKey_amended {α : Type} (W : List (List Char × α))
    (hnd : (W.map (fun kv => remapKey kv.1)).Nodup)
    (k : List Char) (v : α) (hmem : (k, v) ∈ W) :
    (remapKey k, v) ∈ remapStateDict W ∧
    (∀ t : List Char, k = headPat ++ t → ¬ headPat <:+: t →
      remapKey k = headsPat ++ t) ∧
    (¬ headPat <+: k → remapKey k = k) := by
  refine ⟨?_, ?_, ?_⟩
  · rw [remapStateDict_eq_map W hnd]
    exact List.mem_map_of_mem (fun kv => (remapKey kv.1, kv.2)) hmem
  · intro t hk hno
    rw [hk]
    have hp : headPat.isPrefixOf (headPat ++ t) = true :=
      (isPrefixOfIff _ _).mpr ⟨t, rfl⟩
    simp only [remapKey, if_pos hp]
    rw [rep1_marker, rep1_of_noOccur hno]
  · intro hp
    have hb : ¬ headPat.isPrefixOf k = true :=
      fun hcon => hp ((isPrefixOfIff _ _).mp hcon)
    simp only [remapKey, if_neg hb]

/-- C3 witness: the amended per-key contract evaluated on the key
`head_0.fc.weight` of a concrete store. -/
theorem remapKey_amended_witness :
    ((exampleStore.map (fun kv => remapKey kv.1)).Nodup ∧
      ("head_0.fc.weight".toList, (3 : ℚ)) ∈ exampleStore ∧
      "head_0.fc.weight".toList = headPat ++ "0.fc.weight".toList ∧
      ¬ headPat <:+: "0.fc.weight".toList) ∧
    (remapKey "head_0.fc.weight".toList, (3 : ℚ)) ∈ remapStateDict exampleStore ∧
    remapKey "head_0.fc.weight".toList = headsPat ++ "0.fc.weight".toList := by
  have h := remapKey_amended exampleStore (by decide) "head_0.fc.weight".toList
    (3 : ℚ) (by decide)
  exact ⟨⟨by decide, by decide, by decide, by decide⟩, h.1,
    h.2.1 "0.fc.weight".toList (by decide) (by decide)⟩

theorem zipWith_add_replicate_zero (dim : ℕ) :
    List.zipWith (· + ·) (List.replicate dim (0 : ℚ)) (List.replicate dim (0 : ℚ))
      = List.replicate dim 0 := by
  induction dim with
  | zero => rfl
  | succ n ih => simp [List.replicate_succ, ih]

theorem map_mul_zero (r : List ℚ) :
    r.map (fun x => x * (0 : ℚ)) = List.replicate r.length 0 := by
  induction r with
  | nil => rfl
  | cons a as ih => simp [List.replicate_succ, ih]

theorem vsum_masked_zero (dim : ℕ) :
    ∀ (mask : List ℚ) (hidden : List (List ℚ)),
    (∀ r ∈ hidden, r.length = dim) → (∀ m ∈ mask, m = 0) →
    vsum dim (List.zipWith (fun m row => row.map (fun x => x * m)) mask hidden)
      = List.replicate dim 0 := by
  intro mask
  induction mask with
  | nil => intro hidden _ _; rfl
  | cons m ms ih =>
    intro hidden hrow hm
    cases hidden with
    | nil => rfl
    | cons r hs =>
      simp only [List.zipWith_cons_cons, vsum, List.foldr_cons]
      have hrest := ih hs (fun r' hr' => hrow r' (List.mem_cons_of_mem _ hr'))
        (fun m' hm' => hm m' (List.mem_cons_of_mem _ hm'))
      simp only [vsum] at hrest
      rw [hrest, hm m (List.mem_cons_self _ _), map_mul_zero,
        hrow r (List.mem_cons_self _ _)]
      exact zipWith_add_replicate_zero dim

theorem foldr_add_all_zero (mask : List ℚ) (h : ∀ m ∈ mask, m = 0) :
    mask.foldr (· + ·) 0 = 0 := by
  induction mask with
  | nil => rfl
  | cons m ms ih =>
    simp only [List.foldr_cons]
    rw [h m (List.mem_cons_self _ _),
      ih (fun m' hm' => h m' (List.mem_cons_of_mem _ hm')), zero_add]

theorem dot_replicate_zero (row : List ℚ) :
    ∀ dim : ℕ,
    (List.zipWith (· * ·) row (List.replicate dim (0 : ℚ))).foldr (· + ·) 0
      = 0 := by
  induction row with
  | nil => intro dim; rfl
  | cons a as ih =>
    intro dim
    cases dim with
    | zero => rfl
    | succ n => simp [List.replicate_succ, ih n]

theorem head_on_zero_vector (dim : ℕ) :
    ∀ (W : List (List ℚ)) (b : List ℚ), b.length = W.length →
    MulticlassHead_forward W b (List.replicate dim 0) = b := by
  intro W
  induction W with
  | nil =>
    intro b hb
    have hbn : b = [] := List.length_eq_zero.mp (by simpa using hb)
    rw [hbn]
    rfl
  | cons r Ws ih =>
    intro b hb
    cases b with
    | nil => rfl
    | cons bb bs =>
      simp only [MulticlassHead_forward, List.zipWith_cons_cons]
      rw [dot_replicate_zero r dim, zero_add]
      have := ih bs (by simpa using hb)
      simp only [MulticlassHead_forward] at this
      rw [this]

theorem vsum_append (dim : ℕ) (A B : List (List ℚ))
    (hB : vsum dim B = List.replicate dim 0) :
    vsum dim (A ++ B) = vsum dim A := by
  simp only [vsum] at *
  rw [List.foldr_append, hB]

theorem foldr_add_append_zero (m : List ℚ) (n : ℕ) :
    (m ++ List.replicate n 0).foldr (· + ·) 0 = m.foldr (· + ·) 0 := by
  have h0 : (List.replicate n (0 : ℚ)).foldr (· + ·) 0 = 0 :=
    foldr_add_all_zero _ (fun m' hm' => List.eq_of_mem_replicate hm')
  rw [List.foldr_append, h0]

theorem meanPool_append_pad (dim : ℕ) (h : List (List ℚ)) (m : List ℚ)
    (e : List (List ℚ)) (hlen : m.length = h.length)
    (he : ∀ r ∈ e, r.length = dim) :
    MeanPooling_forward dim (h ++ e) (m ++ List.replicate e.length 0)
      = MeanPooling_forward dim h m := by
  simp only [MeanPooling_forward]
  rw [List.zipWith_append _ m (List.replicate e.length 0) h e hlen]
  rw [vsum_append dim _ _ (vsum_masked_zero dim _ e he
    (fun m' hm' => by simpa using List.eq_of_mem_replicate hm'))]
  have hdiv : sum_mask_clamped (m ++ List.replicate e.length 0)
      = sum_mask_clamped m := by
    simp only [sum_mask_clamped]
    rw [foldr_add_append_zero]
  rw [hdiv]

theorem getD_map {β γ : Type} (g : β → γ) (dβ : β) :
    ∀ (l : List β) (i : ℕ), (l.map g).getD i (g dβ) = g (l.getD i dβ) := by
  intro l
  induction l with
  | nil => intro i; rfl
  | cons x xs ih =>
    intro i
    cases i with
    | zero => rfl
    | succ n => exact ih n

theorem range_map_getD {β γ : Type} (g : β → γ) (d : β) :
    ∀ l : List β,
    (List.range l.length).map (fun i => g (l.getD i d)) = l.map g := by
  intro l
  induction l with
  | nil => rfl
  | cons x xs ih =>
    rw [List.length_cons, List.range_succ_eq_map]
    simp only [List.map_cons, List.map_map]
    refine congrArg (g x :: ·) ?_
    rw [← ih]
    apply List.map_congr_left
    intro i _
    rfl

theorem zipWith_get? {β γ δ : Type} (f : β → γ → δ) :
    ∀ (as : List β) (bs : List γ) (i : ℕ) (a : β) (b : γ),
    as.get? i = some a → bs.get? i = some b →
    (List.zipWith f as bs).get? i = some (f a b) := by
  intro as
  induction as with
  | nil => intro bs i a b h; simp at h
  | cons x xs ih =>
    intro bs i a b ha hb
    cases bs with
    | nil => simp at hb
    | cons y ys =>
      cases i with
      | zero =>
        have hxa : x = a := by simpa using ha
        have hyb : y = b := by simpa using hb
        rw [List.zipWith_cons_cons, ← hxa, ← hyb]
        rfl
      | succ n => exact ih ys n a b (by simpa using ha) (by simpa using hb)

/-- C4: for a ConfigRecord with the eight target sizes
12, 3, 2, 2, 6, 4, 1, 2, the wrapper forward returns exactly 8 logit
tensors; the i-th is the i-th head's single affine projection of the pooled
vector and has width equal to the i-th class count; the order follows the
head list and is never permuted, and the CoreML wrapper
(`OriginalCustomModel.forward`) produces the identical tuple. -/
theorem forward_head_contract (dim : ℕ)
    (backbone : List ℤ → List ℚ → List (List ℚ))
    (heads : List (List (List ℚ) × List ℚ)) (ids mask : List ℤ)
    (hlen : heads.length = 8)
    (hW : ∀ i, i < 8 →
      (heads.getD i ([], [])).1.length = targetSizes.getD i 0 ∧
      (heads.getD i ([], [])).2.length = targetSizes.getD i 0) :
    (PromptClassifierONNX_forward dim backbone heads ids mask).length = 8 ∧
    (∀ i, i < 8 →
      (PromptClassifierONNX_forward dim backbone heads ids mask).getD i []
        = MulticlassHead_forward (heads.getD i ([], [])).1
            (heads.getD i ([], [])).2
            (MeanPooling_forward dim
              (backbone ids (mask.map (fun n => (n : ℚ))))
              (mask.map (fun n => (n : ℚ))))) ∧
    (∀ i, i < 8 →
      ((PromptClassifierONNX_forward dim backbone heads ids mask).getD i []).length
        = targetSizes.getD i 0) ∧
    OriginalCustomModel_forward dim 8 backbone heads ids mask
      = PromptClassifierONNX_forward dim backbone heads ids mask := by
  have hget : ∀ i,
      (PromptClassifierONNX_forward dim backbone heads ids mask).getD i []
        = MulticlassHead_forward (heads.getD i ([], [])).1
            (heads.getD i ([], [])).2
            (MeanPooling_forward dim
              (backbone ids (mask.map (fun n => (n : ℚ))))
              (mask.map (fun n => (n : ℚ)))) := by
    intro i
    exact getD_map
      (fun h => MulticlassHead_forward h.1 h.2
        (MeanPooling_forward dim (backbone ids (mask.map (fun n => (n : ℚ))))
          (mask.map (fun n => (n : ℚ)))))
      ([], []) heads i
  refine ⟨by simp [PromptClassifierONNX_forward, hlen],
    fun i _ => hget i, ?_, ?_⟩
  · intro i hi
    rw [hget i]
    simp only [MulticlassHead_forward, List.length_zipWith, (hW i hi).1,
      (hW i hi).2, min_self]
  · simp only [OriginalCustomModel_forward, PromptClassifierONNX_forward]
    rw [← hlen]
    exact range_map_getD
      (fun h => MulticlassHead_forward h.1 h.2
        (MeanPooling_forward dim (backbone ids (mask.map (fun n => (n : ℚ))))
          (mask.map (fun n => (n : ℚ)))))
      ([], []) heads

/-- C4 witness: the forward contract evaluated on a concrete backbone,
concrete heads of the eight target sizes, and a concrete input pair. -/
theorem forward_head_contract_witness :
    (exampleHeads.length = 8 ∧
      ∀ i, i < 8 →
        (exampleHeads.getD i ([], [])).1.length = targetSizes.getD i 0 ∧
        (exampleHeads.getD i ([], [])).2.length = targetSizes.getD i 0) ∧
    (PromptClassifierONNX_forward 2 exampleBackbone exampleHeads [1, 2] [1, 1]).length = 8 ∧
    OriginalCustomModel_forward 2 8 exampleBackbone exampleHeads [1, 2] [1, 1]
      = PromptClassifierONNX_forward 2 exampleBackbone exampleHeads [1, 2] [1, 1] := by
  have h := forward_head_contract 2 exampleBackbone exampleHeads [1, 2] [1, 1]
    (by decide) (by decide)
  exact ⟨⟨by decide, by decide⟩, h.1, h.2.2.2⟩

/-- C5: the pooling division can never be a division by zero: its divisor
is the clamped mask total `max(sum(mask), 1e-9)`, which is bounded below by
the positive constant `1e-9` for every attention mask, and the pooled
vector is this well-defined quotient. -/
theorem pooling_divisor_never_zero (attention_mask : List ℚ) :
    (1 : ℚ) / 1000000000 ≤ sum_mask_clamped attention_mask ∧
    0 < sum_mask_clamped attention_mask ∧
    ∀ (dim : ℕ) (hidden : List (List ℚ)),
      MeanPooling_forward dim hidden attention_mask
        = (vsum dim (List.zipWith (fun m row => row.map (fun x => x * m))
            attention_mask hidden)).map
              (fun x => x / sum_mask_clamped attention_mask) := by
  refine ⟨le_max_right _ _, ?_, fun dim hidden => rfl⟩
  have h1 : (0 : ℚ) < 1 / 1000000000 := by norm_num
  exact lt_of_lt_of_le h1 (le_max_right _ _)

/-- C6: pooling is invariant to right-padding in exact arithmetic: two
inputs sharing the same core rows and mask, and differing only in trailing
rows whose mask entries are zero, pool to the identical vector. -/
theorem pooling_right_padding_invariant (dim : ℕ) (h : List (List ℚ))
    (m : List ℚ) (e1 e2 : List (List ℚ)) (hlen : m.length = h.length)
    (he1 : ∀ r ∈ e1, r.length = dim) (he2 : ∀ r ∈ e2, r.length = dim) :
    MeanPooling_forward dim (h ++ e1) (m ++ List.replicate e1.length 0)
      = MeanPooling_forward dim (h ++ e2) (m ++ List.replicate e2.length 0) := by
  rw [meanPool_append_pad dim h m e1 hlen he1,
    meanPool_append_pad dim h m e2 hlen he2]

/-- C6 witness: padding invariance evaluated on a concrete hidden state,
once with one trailing pad row and once with none. -/
theorem pooling_right_padding_invariant_witness :
    (([(1 : ℚ)] : List ℚ).length = ([[2, 4]] : List (List ℚ)).length ∧
      (∀ r ∈ ([[5, 6]] : List (List ℚ)), r.length = 2) ∧
      (∀ r ∈ ([] : List (List ℚ)), r.length = 2)) ∧
    MeanPooling_forward 2 ([[2, 4]] ++ [[5, 6]])
        ([(1 : ℚ)] ++ List.replicate ([[(5 : ℚ), 6]] : List (List ℚ)).length 0)
      = MeanPooling_forward 2 ([[2, 4]] ++ [])
        ([(1 : ℚ)] ++ List.replicate ([] : List (List ℚ)).length 0) := by
  exact ⟨⟨by decide, by decide, by decide⟩,
    pooling_right_padding_invariant 2 [[2, 4]] [1] [[5, 6]] []
      (by decide) (by decide) (by decide)⟩

/-- C7: the metadata sidecar mapping has exactly the five top-level keys
`task_type_map`, `weights_map`, `divisor_map`, `target_sizes`,
`output_names`, in that order, and looking any of them up returns the
corresponding ConfigRecord field unmodified (respectively the ordered
exported output-name list). -/
theorem classifier_metadata_contract (config : ConfigRecord) :
    (classifier_metadata config output_names_onnx).map Prod.fst
      = ["task_type_map", "weights_map", "divisor_map", "target_sizes",
         "output_names"] ∧
    (classifier_metadata config output_names_onnx).lookup "task_type_map"
      = some config.task_type_map ∧
    (classifier_metadata config output_names_onnx).lookup "weights_map"
      = some config.weights_map ∧
    (classifier_metadata config output_names_onnx).lookup "divisor_map"
      = some config.divisor_map ∧
    (classifier_metadata config output_names_onnx).lookup "target_sizes"
      = some config.target_sizes ∧
    (classifier_metadata config output_names_onnx).lookup "output_names"
      = some (JValue.arr (output_names_onnx.map JValue.str)) := by
  exact ⟨rfl, rfl, rfl, rfl, rfl, rfl⟩

/-- C8: the parity verifier computes, for each output pair, the maximum
absolute elementwise difference and the pass flag `diff < 1e-4`; a `false`
flag is only a reported warning, and the report is produced for every
input, with one entry per compared output pair — there is no aborting
branch. -/
theorem parity_report_contract (outs orts : List (List ℚ)) :
    (parity_report outs orts).length = min outs.length orts.length ∧
    ∀ i o r, outs.get? i = some o → orts.get? i = some r →
      (parity_report outs orts).get? i
        = some (maxAbsDiff o r, decide (maxAbsDiff o r < (1 : ℚ) / 10000)) := by
  constructor
  · simp [parity_report, List.length_zipWith]
  · intro i o r ho hr
    exact zipWith_get? _ outs orts i o r ho hr

/-- C8 witness: the parity report evaluated on two concrete output lists,
one pair within tolerance (pass) and one pair deviating by 1 (warn, not an
abort). -/
theorem parity_report_contract_witness :
    (([[0], [0]] : List (List ℚ)).get? 1 = some [0] ∧
      ([[0], [1]] : List (List ℚ)).get? 1 = some [1]) ∧
    (parity_report [[0], [0]] [[0], [1]]).get? 1
      = some (maxAbsDiff [0] [1], decide (maxAbsDiff [0] [1] < (1 : ℚ) / 10000)) ∧
    (parity_report [[0], [0]] [[0], [1]]).get? 1 = some (1, false) := by
  have hd : maxAbsDiff [0] [1] = 1 := by
    simp [maxAbsDiff]
  have hentry := (parity_report_contract [[0], [0]] [[0], [1]]).2 1 [0] [1] rfl rfl
  refine ⟨⟨rfl, rfl⟩, hentry, ?_⟩
  rw [hentry, hd]
  have hflag : decide ((1 : ℚ) < 1 / 10000) = false := by
    rw [decide_eq_false_iff_not]
    norm_num
  rw [hflag]

/-- C9: whenever the key and query tensors have equal sizes along dimension
-2 (the self-attention case), the replacement relative-position function
returns its `relative_pos` argument unchanged, for every value of
`position_buckets` and `max_relative_positions`. -/
theorem safe_build_rpos_self_attention {R : Type} (queryDims keyDims : List ℕ)
    (relative_pos : R) (position_buckets max_relative_positions : ℤ)
    (build_relative_position : List ℕ → ℤ → ℤ → R)
    (h : sizeNeg2 keyDims = sizeNeg2 queryDims) :
    safe_build_rpos queryDims keyDims relative_pos position_buckets
      max_relative_positions build_relative_position = relative_pos := by
  simp [safe_build_rpos, h]

/-- C9 witness: the self-attention shortcut evaluated at concrete
4-dimensional shapes of equal sequence length. -/
theorem safe_build_rpos_self_attention_witness :
    sizeNeg2 [1, 12, 128, 64] = sizeNeg2 [1, 12, 128, 64] ∧
    safe_build_rpos [1, 12, 128, 64] [1, 12, 128, 64] (42 : ℕ) 256 512
      (fun _ _ _ => 0) = 42 := by
  exact ⟨rfl, safe_build_rpos_self_attention [1, 12, 128, 64] [1, 12, 128, 64]
    42 256 512 (fun _ _ _ => 0) rfl⟩

/-- C10: on an all-zero attention mask the masked sum is zero, the clamped
divisor is 1e-9, and the pooled vector is exactly the zero vector; hence
every classification head outputs exactly its bias vector. -/
theorem pooling_zero_mask_gives_bias (dim : ℕ) (hidden : List (List ℚ))
    (mask : List ℚ) (W : List (List ℚ)) (b : List ℚ)
    (hrow : ∀ r ∈ hidden, r.length = dim) (hm : ∀ x ∈ mask, x = 0)
    (hb : b.length = W.length) :
    MeanPooling_forward dim hidden mask = List.replicate dim 0 ∧
    MulticlassHead_forward W b (MeanPooling_forward dim hidden mask) = b := by
  have hpool : MeanPooling_forward dim hidden mask = List.replicate dim 0 := by
    simp only [MeanPooling_forward]
    rw [vsum_masked_zero dim mask hidden hrow hm, List.map_replicate, zero_div]
  exact ⟨hpool, by rw [hpool]; exact head_on_zero_vector dim W b hb⟩

/-- C10 witness: the all-masked input evaluated on a concrete hidden state
and a concrete head, whose bias is returned verbatim. -/
theorem pooling_zero_mask_gives_bias_witness :
    ((∀ r ∈ ([[1, 2], [3, 4]] : List (List ℚ)), r.length = 2) ∧
      (∀ x ∈ ([0, 0] : List ℚ), x = 0) ∧
      ([(9 : ℚ), 10] : List ℚ).length = ([[5, 6], [7, 8]] : List (List ℚ)).length) ∧
    MeanPooling_forward 2 [[1, 2], [3, 4]] [0, 0] = List.replicate 2  0 ∧
    MulticlassHead_forward [[5, 6], [7, 8]] [9, 10]
      (MeanPooling_forward 2 [[1, 2], [3, 4]] [0, 0]) = [9, 10] := by
  have h := pooling_zero_mask_gives_bias 2 [[1, 2], [3, 4]] [0, 0]
    [[5, 6], [7, 8]] [9, 10] (by decide) (by decide) (by decide)
  exact ⟨⟨by decide, by decide, by decide⟩, h.1, h.2⟩
